import Mathlib

/-!
Shallow embedding of the mac_table repository (src/src/mac_table.c and
src/src/mac_table_expiry_manager.c) in Lean 4, together with theorems
settling the specification claims.

Modelling conventions:
- machine integers: size_t counters are Nat reduced mod 2 ^ 64 at every
  increment and decrement, exactly where the C code performs unsigned
  wraparound arithmetic; time_t values are Int; uint8 bytes are Nat.
- arrays are Lists indexed with getD; every access performed by the C
  code is in bounds, and the default value is never observable.
- pointers that may be NULL are modelled with Option.
- the FreeRTOS timer arming calls are external real-time effects with no
  influence on the table, the queue or the counters; they are not part of
  the state. The timer callback body (the table and queue mutations it
  performs when the timer fires) is modelled as an operation.
- the event callback is modelled by returning the list of events an
  operation emits, in emission order.
-/

namespace MacTable

/-- Slot lifecycle states, from slot_state_t. -/
inductive SlotState
  | empty
  | tombstone
  | occupied
deriving DecidableEq, Repr, Inhabited

/-- Operation results and event kinds, from mac_entry_result_t. -/
inductive MacResult
  | ok
  | timeout
  | notFound
  | inserted
  | updated
  | deleted
  | full
deriving DecidableEq, Repr, Inhabited

/-- One slot of the table, from mac_entry_t.  The mac field is the 6-byte
address as a list of byte values. -/
structure Entry where
  mac : List Nat
  timeout_duration : Int
  state : SlotState
  role : Nat
deriving DecidableEq, Repr, Inhabited

/-- Statistics record, from mac_table_stats_t (all fields size_t). -/
structure Stats where
  total_inserts : Nat
  total_deletes : Nat
  total_expired : Nat
  active_entries : Nat
deriving DecidableEq, Repr, Inhabited

/-- One entry of the expiry min-heap, from HeapEntry. -/
structure HeapEntry where
  slot_index : Nat
  expiry_time : Int
deriving DecidableEq, Repr, Inhabited

/-- One invocation of the event callback: (slot_index, mac, status).
The slot index is an int in C, so it is an Int here; the table-full event
passes -1. -/
structure Event where
  slot_index : Int
  mac : List Nat
  status : MacResult
deriving DecidableEq, Repr

/-- Combined state of a mac_table_t and its expiry manager heap.  The heap
capacity equals entries.length (expiry_manager_create uses table->size). -/
structure SysState where
  entries : List Entry
  expiry_seconds : Nat
  stats : Stats
  heap : List HeapEntry
deriving DecidableEq, Repr

/-- Modulus of size_t arithmetic. -/
def U64 : Nat := 2 ^ 64

/-- Wrapping increment of a size_t counter (the ++ in the C code). -/
def usucc (x : Nat) : Nat := (x + 1) % U64

/-- Wrapping decrement of a size_t counter (the -- in the C code). -/
def upred (x : Nat) : Nat := (x + (U64 - 1)) % U64

/-- FNV-1a hash of the 6 mac bytes reduced mod the table size, from
mac_hash (the non-ESP branch: hash = 0x811C9DC5; hash ^= mac[i];
hash *= 0x01000193 with uint32 wraparound; return hash % size). -/
def mac_hash (mac : List Nat) (size : Nat) : Nat :=
  (mac.foldl (fun h b => ((h ^^^ b) * 0x01000193) % 2 ^ 32) 0x811C9DC5) % size

/-- Parent index in the heap, from heap_parent. -/
def heap_parent (index : Nat) : Nat := (index - 1) / 2

/-- Left child index in the heap, from heap_left_child. -/
def heap_left_child (index : Nat) : Nat := 2 * index + 1

/-- Right child index in the heap, from heap_right_child. -/
def heap_right_child (index : Nat) : Nat := 2 * index + 2

/-- Swap two heap entries, from heap_swap. -/
def heap_swap (l : List HeapEntry) (i j : Nat) : List HeapEntry :=
  let a := l.getD i default
  let b := l.getD j default
  (l.set i b).set j a

/-- Loop body of heap_bubble_up.  The C while loop moves from index to
heap_parent index, which is strictly smaller, so index itself bounds the
number of iterations; the fuel argument carries that bound and never runs
out before the loop exit condition holds. -/
def heap_bubble_up_go : Nat → List HeapEntry → Nat → List HeapEntry
  | 0, l, _ => l
  | fuel + 1, l, index =>
    if index > 0 then
      let parent := heap_parent index
      if (l.getD index default).expiry_time ≥ (l.getD parent default).expiry_time then l
      else heap_bubble_up_go fuel (heap_swap l index parent) parent
    else l

/-- Bubble up to maintain the heap property, from heap_bubble_up. -/
def heap_bubble_up (l : List HeapEntry) (index : Nat) : List HeapEntry :=
  heap_bubble_up_go index l index

/-- Loop body of heap_bubble_down.  Each iteration moves index to a child,
which is strictly larger and below the length, so the length bounds the
number of iterations; the fuel argument carries that bound. -/
def heap_bubble_down_go : Nat → List HeapEntry → Nat → List HeapEntry
  | 0, l, _ => l
  | fuel + 1, l, index =>
    let left := heap_left_child index
    let right := heap_right_child index
    let m1 :=
      if left < l.length ∧ (l.getD left default).expiry_time < (l.getD index default).expiry_time
      then left else index
    let m2 :=
      if right < l.length ∧ (l.getD right default).expiry_time < (l.getD m1 default).expiry_time
      then right else m1
    if m2 = index then l
    else heap_bubble_down_go fuel (heap_swap l index m2) m2

/-- Bubble down to maintain the heap property, from heap_bubble_down. -/
def heap_bubble_down (l : List HeapEntry) (index : Nat) : List HeapEntry :=
  heap_bubble_down_go l.length l index

/-- Insert an entry, from min_heap_insert: writes at position size, bubbles
up from there, no-op when the heap is at capacity (the int status returned
by the C function is ignored by every caller). -/
def min_heap_insert (capacity : Nat) (l : List HeapEntry) (slot_index : Nat)
    (expiry_time : Int) : List HeapEntry :=
  if l.length ≥ capacity then l
  else heap_bubble_up (l ++ [⟨slot_index, expiry_time⟩]) l.length

/-- Remove the first entry with the given slot index, from min_heap_remove:
overwrite with the last entry, shrink, then bubble up and bubble down from
that position unless the last position itself was removed. -/
def min_heap_remove (l : List HeapEntry) (slot_index : Nat) : List HeapEntry :=
  match l.findIdx? (fun e => e.slot_index == slot_index) with
  | none => l
  | some i =>
    let l2 := (l.set i (l.getD (l.length - 1) default)).take (l.length - 1)
    if i < l2.length then heap_bubble_down (heap_bubble_up l2 i) i else l2

/-- Earliest expiry, from min_heap_peek (0 when the heap is empty). -/
def min_heap_peek (l : List HeapEntry) : Int :=
  match l with
  | [] => 0
  | e :: _ => e.expiry_time

/-- Pop the root, from min_heap_pop: root replaced by the last entry, size
shrunk, bubble down from the root when entries remain. -/
def min_heap_pop (l : List HeapEntry) : Option (HeapEntry × List HeapEntry) :=
  match l with
  | [] => none
  | root :: _ =>
    let l2 := (l.set 0 (l.getD (l.length - 1) default)).take (l.length - 1)
    let l3 := if 0 < l2.length then heap_bubble_down l2 0 else l2
    some (root, l3)

/-- Queue-side effect of expiry_manager_add_or_update: bounds and occupancy
guards, remove any existing entry for the slot, insert a fresh entry with
the current timeout of the slot.  The timer re-arming at the end of the C
function is an external effect that touches neither table, queue nor stats. -/
def expiry_manager_add_or_update (st : SysState) (slot_index : Nat) : SysState :=
  if slot_index ≥ st.entries.length then st
  else
    let entry := st.entries.getD slot_index default
    if entry.state ≠ SlotState.occupied then st
    else
      let h1 := min_heap_remove st.heap slot_index
      let h2 := min_heap_insert st.entries.length h1 slot_index entry.timeout_duration
      { st with heap := h2 }

/-- Queue-side effect of expiry_manager_delete: bounds guard then removal.
The timer update at the end of the C function is an external effect. -/
def expiry_manager_delete (st : SysState) (slot_index : Nat) : SysState :=
  if slot_index ≥ st.entries.length then st
  else { st with heap := min_heap_remove st.heap slot_index }

/-- Insert options, from mac_insert_options_t. -/
structure InsertOpts where
  has_custom_duration : Bool
  custom_duration : Int
  has_role : Bool
  role : Nat
deriving DecidableEq, Repr

/-- DEFAULT_ROLE from mac_table.c. -/
def DEFAULT_ROLE : Nat := 0

/-- Absolute timeout computed by mac_table_insert_ex: now plus the custom
duration when present, otherwise now plus the default expiry_seconds. -/
def insert_timeout (st : SysState) (now : Int) (opts : Option InsertOpts) : Int :=
  match opts with
  | some o => if o.has_custom_duration then now + o.custom_duration else now + st.expiry_seconds
  | none => now + st.expiry_seconds

/-- Role chosen by mac_table_insert_ex. -/
def insert_role (opts : Option InsertOpts) : Nat :=
  match opts with
  | some o => if o.has_role then o.role else DEFAULT_ROLE
  | none => DEFAULT_ROLE

/-- Probe loop of mac_table_insert_ex.  fuel counts the remaining loop
iterations (table->size at entry), i is the loop counter, first_tombstone
is the first_tombstone local (-1 modelled as none).  When fuel reaches 0
the loop has completed a full cycle and the code after the loop runs:
claim the remembered tombstone, or report a full table with slot index -1
and no mutation. -/
def insert_probe_go :
    Nat → SysState → List Nat → Int → Nat → Nat → Nat → Option Nat →
    MacResult × SysState × List Event
  | 0, st, mac, timeout, role, _index, _i, first_tombstone =>
    match first_tombstone with
    | some ft =>
      let st1 : SysState :=
        { st with
          entries := st.entries.set ft ⟨mac, timeout, SlotState.occupied, role⟩,
          stats := { st.stats with
                     total_inserts := usucc st.stats.total_inserts,
                     active_entries := usucc st.stats.active_entries } }
      let st2 := expiry_manager_add_or_update st1 ft
      (MacResult.inserted, st2, [⟨(ft : Int), mac, MacResult.inserted⟩])
    | none => (MacResult.full, st, [⟨-1, mac, MacResult.full⟩])
  | fuel + 1, st, mac, timeout, role, index, i, first_tombstone =>
    let probe := (index + i) % st.entries.length
    let entry := st.entries.getD probe default
    if entry.state = SlotState.occupied then
      if entry.mac = mac then
        let st1 : SysState :=
          { st with entries :=
              st.entries.set probe { entry with timeout_duration := timeout, role := role } }
        let st2 := expiry_manager_add_or_update st1 probe
        (MacResult.updated, st2, [⟨(probe : Int), mac, MacResult.updated⟩])
      else insert_probe_go fuel st mac timeout role index (i + 1) first_tombstone
    else if entry.state = SlotState.tombstone then
      insert_probe_go fuel st mac timeout role index (i + 1)
        (if first_tombstone = none then some probe else first_tombstone)
    else
      let st1 : SysState :=
        { st with
          entries := st.entries.set probe ⟨mac, timeout, SlotState.occupied, role⟩,
          stats := { st.stats with
                     total_inserts := usucc st.stats.total_inserts,
                     active_entries := usucc st.stats.active_entries } }
      let st2 := expiry_manager_add_or_update st1 probe
      (MacResult.inserted, st2, [⟨(probe : Int), mac, MacResult.inserted⟩])

/-- mac_table_insert_ex.  The NULL table and NULL mac guard of the C code
is not representable for value arguments; opts is Option because the C
code is called with a NULL opts pointer by mac_table_insert.  now is the
value read from time(NULL). -/
def mac_table_insert_ex (st : SysState) (mac : List Nat) (opts : Option InsertOpts)
    (now : Int) : MacResult × SysState × List Event :=
  insert_probe_go st.entries.length st mac (insert_timeout st now opts)
    (insert_role opts) (mac_hash mac st.entries.length) 0 none

/-- mac_table_insert: insert_ex with NULL options. -/
def mac_table_insert (st : SysState) (mac : List Nat) (now : Int) :
    MacResult × SysState × List Event :=
  mac_table_insert_ex st mac none now

/-- Probe loop of mac_table_exists: stop with NOT_FOUND at the first EMPTY
slot, report OK at an OCCUPIED slot holding the key, NOT_FOUND after a
full cycle. -/
def exists_probe_go : Nat → SysState → List Nat → Nat → Nat → MacResult
  | 0, _, _, _, _ => MacResult.notFound
  | fuel + 1, st, mac, index, i =>
    let probe := (index + i) % st.entries.length
    let entry := st.entries.getD probe default
    if entry.state = SlotState.empty then MacResult.notFound
    else if entry.state = SlotState.occupied ∧ entry.mac = mac then MacResult.ok
    else exists_probe_go fuel st mac index (i + 1)

/-- mac_table_exists. -/
def mac_table_exists (st : SysState) (mac : List Nat) : MacResult :=
  exists_probe_go st.entries.length st mac (mac_hash mac st.entries.length) 0

/-- Probe loop of mac_table_delete: stop at EMPTY with NOT_FOUND; at an
OCCUPIED match set TOMBSTONE, bump total_deletes, drop active_entries,
remove the queue entry of that slot and emit a Delete event. -/
def delete_probe_go : Nat → SysState → List Nat → Nat → Nat →
    MacResult × SysState × List Event
  | 0, st, _, _, _ => (MacResult.notFound, st, [])
  | fuel + 1, st, mac, index, i =>
    let probe := (index + i) % st.entries.length
    let entry := st.entries.getD probe default
    if entry.state = SlotState.empty then (MacResult.notFound, st, [])
    else if entry.state = SlotState.occupied ∧ entry.mac = mac then
      let st1 : SysState :=
        { st with
          entries := st.entries.set probe { entry with state := SlotState.tombstone },
          stats := { st.stats with
                     total_deletes := usucc st.stats.total_deletes,
                     active_entries := upred st.stats.active_entries } }
      let st2 := expiry_manager_delete st1 probe
      (MacResult.deleted, st2, [⟨(probe : Int), mac, MacResult.deleted⟩])
    else delete_probe_go fuel st mac index (i + 1)

/-- mac_table_delete. -/
def mac_table_delete (st : SysState) (mac : List Nat) : MacResult × SysState × List Event :=
  delete_probe_go st.entries.length st mac (mac_hash mac st.entries.length) 0

/-- mac_table_get_by_index: a copy of the entry when the index is in range
and the slot is OCCUPIED. -/
def mac_table_get_by_index (st : SysState) (index : Nat) : MacResult × Option Entry :=
  if index ≥ st.entries.length then (MacResult.notFound, none)
  else
    let entry := st.entries.getD index default
    if entry.state ≠ SlotState.occupied then (MacResult.notFound, none)
    else (MacResult.ok, some entry)

/-- mac_table_delete_by_index: tombstone an OCCUPIED slot addressed by
index, update stats, emit the event, remove the queue entry. -/
def mac_table_delete_by_index (st : SysState) (index : Nat) : SysState × List Event :=
  if index ≥ st.entries.length then (st, [])
  else
    let entry := st.entries.getD index default
    if entry.state = SlotState.occupied then
      let st1 : SysState :=
        { st with
          entries := st.entries.set index { entry with state := SlotState.tombstone },
          stats := { st.stats with
                     total_deletes := usucc st.stats.total_deletes,
                     active_entries := upred st.stats.active_entries } }
      let st2 := expiry_manager_delete st1 index
      (st2, [⟨(index : Int), entry.mac, MacResult.deleted⟩])
    else (st, [])

/-- mac_table_get_stats: a copy of the stats record. -/
def mac_table_get_stats (st : SysState) : Stats := st.stats

/-- mac_table_reset_stats: zero the three monotone counters and return
true; active_entries is never written.  none models a NULL table pointer
or a NULL table->stats pointer, for which the C code returns false with
no mutation. -/
def mac_table_reset_stats : Option SysState → Bool × Option SysState
  | some st =>
    (true, some { st with stats := { st.stats with
        total_inserts := 0, total_deletes := 0, total_expired := 0 } })
  | none => (false, none)

/-- Loop of mac_table_evict_by_role.  The loop body of the C code passes an
identifier named index to the event callback and to expiry_manager_delete,
but no variable of that name is declared in the function or the file: the
name resolves to the C library function index from strings.h, so the value
passed is that function address converted to an integer, an unspecified
value unrelated to the loop counter i.  That value is the index_garbage
parameter here. -/
def evict_by_role_go : Nat → SysState → Nat → Nat → Nat → Nat →
    Nat × SysState × List Event
  | 0, st, _, _, _, count => (count, st, [])
  | fuel + 1, st, role, index_garbage, i, count =>
    let entry := st.entries.getD i default
    if entry.state = SlotState.occupied ∧ entry.role = role then
      let st1 : SysState :=
        { st with
          entries := st.entries.set i { entry with state := SlotState.tombstone },
          stats := { st.stats with
                     total_deletes := usucc st.stats.total_deletes,
                     active_entries := upred st.stats.active_entries } }
      let st2 := expiry_manager_delete st1 index_garbage
      let rest := evict_by_role_go fuel st2 role index_garbage (i + 1) (count + 1)
      (rest.1, rest.2.1, ⟨(index_garbage : Int), entry.mac, MacResult.deleted⟩ :: rest.2.2)
    else evict_by_role_go fuel st role index_garbage (i + 1) count

/-- mac_table_evict_by_role. -/
def mac_table_evict_by_role (st : SysState) (role : Nat) (index_garbage : Nat) :
    Nat × SysState × List Event :=
  evict_by_role_go st.entries.length st role index_garbage 0 0

/-- Loop of mac_table_clear: identical to evict_by_role without the role
filter, including the undeclared index identifier described there. -/
def clear_go : Nat → SysState → Nat → Nat → Nat → Nat × SysState × List Event
  | 0, st, _, _, count => (count, st, [])
  | fuel + 1, st, index_garbage, i, count =>
    let entry := st.entries.getD i default
    if entry.state = SlotState.occupied then
      let st1 : SysState :=
        { st with
          entries := st.entries.set i { entry with state := SlotState.tombstone },
          stats := { st.stats with
                     total_deletes := usucc st.stats.total_deletes,
                     active_entries := upred st.stats.active_entries } }
      let st2 := expiry_manager_delete st1 index_garbage
      let rest := clear_go fuel st2 index_garbage (i + 1) (count + 1)
      (rest.1, rest.2.1, ⟨(index_garbage : Int), entry.mac, MacResult.deleted⟩ :: rest.2.2)
    else clear_go fuel st index_garbage (i + 1) count

/-- mac_table_clear. -/
def mac_table_clear (st : SysState) (index_garbage : Nat) : Nat × SysState × List Event :=
  clear_go st.entries.length st index_garbage 0 0

/-- is_protected_role: a NULL protected_roles pointer protects nothing;
otherwise only the single role value the pointer refers to is compared. -/
def is_protected_role (role : Nat) (protected_roles : Option Nat) : Bool :=
  match protected_roles with
  | none => false
  | some r => role == r

/-- Loop of mac_table_remove_oldest: scan the heap storage array in index
order, skip entries whose slot index is out of range, whose slot is not
OCCUPIED, or whose role is protected; evict the first remaining one and
stop.  fuel is heap->size at entry; the heap is only mutated on the
returning iteration. -/
def remove_oldest_go : Nat → SysState → Option Nat → Nat → Bool × SysState × List Event
  | 0, st, _, _ => (false, st, [])
  | fuel + 1, st, protected_roles, i =>
    let index := (st.heap.getD i default).slot_index
    if index ≥ st.entries.length then remove_oldest_go fuel st protected_roles (i + 1)
    else
      let entry := st.entries.getD index default
      if entry.state ≠ SlotState.occupied then remove_oldest_go fuel st protected_roles (i + 1)
      else if is_protected_role entry.role protected_roles then
        remove_oldest_go fuel st protected_roles (i + 1)
      else
        let st1 : SysState :=
          { st with
            entries := st.entries.set index { entry with state := SlotState.tombstone },
            stats := { st.stats with
                       total_deletes := usucc st.stats.total_deletes,
                       active_entries := upred st.stats.active_entries } }
        let st2 := expiry_manager_delete st1 index
        (true, st2, [⟨(index : Int), entry.mac, MacResult.deleted⟩])

/-- mac_table_remove_oldest: false immediately when the heap is empty. -/
def mac_table_remove_oldest (st : SysState) (protected_roles : Option Nat) :
    Bool × SysState × List Event :=
  if st.heap = [] then (false, st, [])
  else remove_oldest_go st.heap.length st protected_roles 0

/-- Drain loop of expiry_timer_callback: while the heap is non-empty and
its minimum is at or before now, pop; when the popped slot is in range,
still OCCUPIED and still carries exactly the popped expiry, bump
total_expired, drop active_entries, emit a Timeout event and set the slot
to TOMBSTONE; otherwise discard the popped pair.  fuel is heap->size at
entry; every iteration pops exactly one entry.  The timer re-arming after
the loop is an external effect. -/
def expiry_timer_go : Nat → SysState → Int → SysState × List Event
  | 0, st, _ => (st, [])
  | fuel + 1, st, now =>
    if 0 < st.heap.length ∧ min_heap_peek st.heap ≤ now then
      match min_heap_pop st.heap with
      | none => (st, [])
      | some (popped, rest) =>
        let st0 : SysState := { st with heap := rest }
        let entry := st0.entries.getD popped.slot_index default
        if popped.slot_index < st0.entries.length ∧ entry.state = SlotState.occupied ∧
            entry.timeout_duration = popped.expiry_time then
          let st1 : SysState :=
            { st0 with
              entries := st0.entries.set popped.slot_index
                { entry with state := SlotState.tombstone },
              stats := { st0.stats with
                         total_expired := usucc st0.stats.total_expired,
                         active_entries := upred st0.stats.active_entries } }
          let rest2 := expiry_timer_go fuel st1 now
          (rest2.1, ⟨(popped.slot_index : Int), entry.mac, MacResult.timeout⟩ :: rest2.2)
        else expiry_timer_go fuel st0 now
    else (st, [])

/-- Table, queue and counter effect of expiry_timer_callback at the time
value now read from time(NULL). -/
def expiry_timer_callback (st : SysState) (now : Int) : SysState × List Event :=
  expiry_timer_go st.heap.length st now

/-- mac_table_init for a table of the given size: every slot EMPTY with
zeroed timeout and zeroed mac bytes, stats calloc-zeroed, empty heap of
capacity size.  Returns none when size is 0 (the C code returns false).
The role field of a fresh slot is left uninitialized by the C code and is
never read before an insert writes it; it is modelled as 0. -/
def mac_table_init (size : Nat) (expiry_seconds : Nat) : Option SysState :=
  if size = 0 then none
  else some
    { entries := List.replicate size ⟨List.replicate 6 0, 0, SlotState.empty, 0⟩,
      expiry_seconds := expiry_seconds,
      stats := ⟨0, 0, 0, 0⟩,
      heap := [] }

/-- Public operations, for statements about arbitrary operation
sequences.  The three query constructors call functions that take the
table by const pointer and perform no writes, so their step is the
identity on the state. -/
inductive Op
  | insert (mac : List Nat) (opts : Option InsertOpts) (now : Int)
  | deleteKey (mac : List Nat)
  | deleteByIndex (index : Nat)
  | removeOldest (protected_roles : Option Nat)
  | evictByRole (role : Nat) (index_garbage : Nat)
  | clearAll (index_garbage : Nat)
  | timerFire (now : Int)
  | resetStats
  | queryExists (mac : List Nat)
  | queryGetByIndex (index : Nat)
  | queryGetStats

/-- State transition of one public operation. -/
def Op.step (st : SysState) : Op → SysState
  | Op.insert mac opts now => (mac_table_insert_ex st mac opts now).2.1
  | Op.deleteKey mac => (mac_table_delete st mac).2.1
  | Op.deleteByIndex index => (mac_table_delete_by_index st index).1
  | Op.removeOldest protected_roles => (mac_table_remove_oldest st protected_roles).2.1
  | Op.evictByRole role index_garbage => (mac_table_evict_by_role st role index_garbage).2.1
  | Op.clearAll index_garbage => (mac_table_clear st index_garbage).2.1
  | Op.timerFire now => (expiry_timer_callback st now).1
  | Op.resetStats => (mac_table_reset_stats (some st)).2.getD st
  | Op.queryExists _ => st
  | Op.queryGetByIndex _ => st
  | Op.queryGetStats => st

/-- Run a sequence of public operations. -/
def run (st : SysState) (ops : List Op) : SysState := ops.foldl Op.step st

/-- Number of OCCUPIED slots. -/
def occCount (l : List Entry) : Nat := l.countP (fun e => e.state == SlotState.occupied)

/-- Invariant I1 of the spec: no two OCCUPIED slots hold the same key. -/
def I1 (st : SysState) : Prop :=
  ∀ i j, i < st.entries.length → j < st.entries.length → i ≠ j →
    (st.entries.getD i default).state = SlotState.occupied →
    (st.entries.getD j default).state = SlotState.occupied →
    (st.entries.getD i default).mac ≠ (st.entries.getD j default).mac

/-- Invariant I2 of the spec: every OCCUPIED slot has exactly one queue
entry carrying its index, and that entry carries its current expiry;
every queue entry refers to an OCCUPIED slot with matching expiry. -/
def I2 (st : SysState) : Prop :=
  (∀ i, i < st.entries.length →
    (st.entries.getD i default).state = SlotState.occupied →
      st.heap.countP (fun e => e.slot_index == i) = 1 ∧
      st.heap.countP (fun e =>
        e.slot_index == i &&
        e.expiry_time == (st.entries.getD i default).timeout_duration) = 1) ∧
  (∀ k, k < st.heap.length →
    (st.heap.getD k default).slot_index < st.entries.length ∧
    (st.entries.getD (st.heap.getD k default).slot_index default).state = SlotState.occupied ∧
    (st.entries.getD (st.heap.getD k default).slot_index default).timeout_duration =
      (st.heap.getD k default).expiry_time)

/-- Invariant I4 of the spec: active_entries equals the OCCUPIED count. -/
def I4 (st : SysState) : Prop := st.stats.active_entries = occCount st.entries

instance I2.decidable (st : SysState) : Decidable (I2 st) := by
  unfold I2
  infer_instance

instance I4.decidable (st : SysState) : Decidable (I4 st) := by
  unfold I4
  infer_instance

/-- Well-formedness carried through every run: positive capacity below the
size_t modulus (guaranteed by mac_table_init), and I4. -/
def WFStats (st : SysState) : Prop :=
  0 < st.entries.length ∧ st.entries.length < U64 ∧ I4 st

/-- Concrete option records used by the walkthrough states. -/
def ex_opts (d : Int) (r : Nat) : Option InsertOpts := some ⟨true, d, true, r⟩

/-- Freshly initialized capacity-3 table (mac_table_init 3 30). -/
def ex_init3 : SysState :=
  ⟨List.replicate 3 ⟨List.replicate 6 0, 0, SlotState.empty, 0⟩, 30, ⟨0, 0, 0, 0⟩, []⟩

/-- Freshly initialized capacity-1 table (mac_table_init 1 30). -/
def ex_init1 : SysState :=
  ⟨List.replicate 1 ⟨List.replicate 6 0, 0, SlotState.empty, 0⟩, 30, ⟨0, 0, 0, 0⟩, []⟩

def ex_m1 : List Nat := [0, 0, 0, 0, 0, 1]

def ex_m2 : List Nat := [0, 0, 0, 0, 0, 2]

def ex_m3 : List Nat := [0, 0, 0, 0, 0, 3]

def ex_m4 : List Nat := [0, 0, 0, 0, 0, 4]

/-- ex_init3 after inserting ex_m1 with ttl 10 and role 0 at time 0
(lands in slot 2). -/
def ex_stA : SysState := (mac_table_insert_ex ex_init3 ex_m1 (ex_opts 10 0) 0).2.1

/-- ex_stA after inserting ex_m2 with ttl 5 and role 1 (slot 0). -/
def ex_stB : SysState := (mac_table_insert_ex ex_stA ex_m2 (ex_opts 5 1) 0).2.1

/-- ex_stB after inserting ex_m3 with ttl 7 and role 0 (slot 1). -/
def ex_stC : SysState := (mac_table_insert_ex ex_stB ex_m3 (ex_opts 7 0) 0).2.1

/-- ex_init1 after inserting ex_m1 with default options at time 0. -/
def ex_v1 : SysState := (mac_table_insert ex_init1 ex_m1 0).2.1

theorem usucc_eq {x : Nat} (h : x + 1 < U64) : usucc x = x + 1 := by
  unfold usucc U64 at *
  omega

theorem upred_eq {x : Nat} (h1 : 0 < x) (h2 : x < U64) : upred x = x - 1 := by
  unfold upred U64 at *
  omega

theorem countP_set_balance {α : Type} [Inhabited α] (p : α → Bool) (l : List α) (i : Nat)
    (a : α) (h : i < l.length) :
    (l.set i a).countP p + (if p (l.getD i default) then 1 else 0) =
      l.countP p + (if p a then 1 else 0) := by
  induction l generalizing i with
  | nil => simp at h
  | cons x xs ih =>
    cases i with
    | zero =>
      simp [List.countP_cons, List.getD]
      omega
    | succ n =>
      have hn : n < xs.length := by simpa using h
      have := ih n hn
      simp [List.countP_cons, List.getD] at *
      omega

theorem getD_set_self {α : Type} [Inhabited α] (l : List α) (i : Nat) (a : α)
    (h : i < l.length) : (l.set i a).getD i default = a := by
  simp [List.getD, List.getElem?_set_self, h]

theorem getD_set_ne {α : Type} [Inhabited α] (l : List α) (i j : Nat) (a : α)
    (hij : i ≠ j) : (l.set i a).getD j default = l.getD j default := by
  simp [List.getD, List.getElem?_set_ne hij]

theorem occCount_set_balance (l : List Entry) (i : Nat) (a : Entry) (h : i < l.length) :
    occCount (l.set i a) +
      (if (l.getD i default).state == SlotState.occupied then 1 else 0) =
    occCount l + (if a.state == SlotState.occupied then 1 else 0) := by
  unfold occCount
  exact countP_set_balance _ l i a h

theorem occCount_le_length (l : List Entry) : occCount l ≤ l.length :=
  List.countP_le_length _

theorem occCount_lt_length (l : List Entry) (i : Nat) (h : i < l.length)
    (hs : (l.getD i default).state ≠ SlotState.occupied) : occCount l < l.length := by
  rcases Nat.lt_or_ge (occCount l) l.length with h1 | h1
  · exact h1
  · exfalso
    have heq : occCount l = l.length := Nat.le_antisymm (occCount_le_length l) h1
    have hall := List.countP_eq_length.mp heq
    have hmem : l.getD i default ∈ l := by
      rw [List.getD_eq_getElem l default h]
      exact List.getElem_mem h
    have := hall _ hmem
    simp only [beq_iff_eq] at this
    exact hs this

theorem occCount_pos (l : List Entry) (i : Nat) (h : i < l.length)
    (hs : (l.getD i default).state = SlotState.occupied) : 0 < occCount l := by
  apply List.countP_pos_iff.mpr
  refine ⟨l.getD i default, ?_, by simp only [beq_iff_eq]; exact hs⟩
  rw [List.getD_eq_getElem l default h]
  exact List.getElem_mem h

theorem add_or_update_entries (st : SysState) (k : Nat) :
    (expiry_manager_add_or_update st k).entries = st.entries := by
  unfold expiry_manager_add_or_update
  split
  · rfl
  · simp only []
    split <;> rfl

theorem add_or_update_stats (st : SysState) (k : Nat) :
    (expiry_manager_add_or_update st k).stats = st.stats := by
  unfold expiry_manager_add_or_update
  split
  · rfl
  · simp only []
    split <;> rfl

theorem manager_delete_entries (st : SysState) (k : Nat) :
    (expiry_manager_delete st k).entries = st.entries := by
  unfold expiry_manager_delete
  split <;> rfl

theorem manager_delete_stats (st : SysState) (k : Nat) :
    (expiry_manager_delete st k).stats = st.stats := by
  unfold expiry_manager_delete
  split <;> rfl

/-- C10: for a table with a non-null stats record, mac_table_reset_stats
zeroes total_inserts, total_deletes and total_expired, leaves
active_entries, every slot and every queue entry unchanged, and returns
true (so I4 is preserved across a reset); with a NULL table or NULL stats
pointer it returns false with no mutation. -/
theorem mac_table_reset_stats_spec (st : SysState) :
    mac_table_reset_stats (some st) =
      (true, some { st with stats :=
        { total_inserts := 0, total_deletes := 0, total_expired := 0,
          active_entries := st.stats.active_entries } }) ∧
    (I4 st → I4 ((mac_table_reset_stats (some st)).2.getD st)) ∧
    mac_table_reset_stats none = (false, none) := by
  refine ⟨rfl, ?_, rfl⟩
  intro h
  simpa [mac_table_reset_stats, I4] using h

/-- Witness for mac_table_reset_stats_spec at the concrete capacity-3
state ex_stC. -/
theorem mac_table_reset_stats_spec_witness :
    I4 ((mac_table_reset_stats (some ex_stC)).2.getD ex_stC) :=
  (mac_table_reset_stats_spec ex_stC).2.1 (by decide)

/-- C1 evidence: mac_table_remove_oldest scans the heap storage array in
index order (only the root of a binary heap is the minimum), so on the
reachable capacity-3 state ex_stC — slots (0,1,2) OCCUPIED with expiries
(5,7,10) and roles (1,0,0), heap storage [(0,5),(2,10),(1,7)] — a call
protecting role 1 returns true but evicts slot 2 with expiry 10 while the
unprotected slot 1 with strictly smaller expiry 7 stays OCCUPIED,
refuting the globally-smallest-expiry property the claim states. -/
theorem remove_oldest_evicts_non_minimal :
    mac_table_init 3 30 = some ex_init3 ∧
    run ex_init3 [Op.insert ex_m1 (ex_opts 10 0) 0, Op.insert ex_m2 (ex_opts 5 1) 0,
      Op.insert ex_m3 (ex_opts 7 0) 0] = ex_stC ∧
    ex_stC.heap = [⟨0, 5⟩, ⟨2, 10⟩, ⟨1, 7⟩] ∧
    (ex_stC.entries.getD 1 default).state = SlotState.occupied ∧
    (ex_stC.entries.getD 1 default).role = 0 ∧
    is_protected_role 0 (some 1) = false ∧
    (ex_stC.entries.getD 1 default).timeout_duration = 7 ∧
    (ex_stC.entries.getD 2 default).timeout_duration = 10 ∧
    (mac_table_remove_oldest ex_stC (some 1)).1 = true ∧
    ((mac_table_remove_oldest ex_stC (some 1)).2.1.entries.getD 2 default).state =
      SlotState.tombstone ∧
    ((mac_table_remove_oldest ex_stC (some 1)).2.1.entries.getD 1 default).state =
      SlotState.occupied := by decide

/-- C2 evidence: the loop bodies of mac_table_evict_by_role pass the
undeclared identifier index (the address of the C library function index,
bound to index_garbage here, a value at least the table size) to
expiry_manager_delete instead of the loop counter i, so the queue entry of
the evicted slot is never removed: after insert then evict_by_role on a
capacity-1 table the slot is TOMBSTONE but the queue still holds its
entry, violating I2. -/
theorem evict_by_role_leaves_stale_queue_entry :
    mac_table_init 1 30 = some ex_init1 ∧
    run ex_init1 [Op.insert ex_m1 none 0] = ex_v1 ∧
    I2 ex_v1 ∧
    (mac_table_evict_by_role ex_v1 0 3735928559).1 = 1 ∧
    ((mac_table_evict_by_role ex_v1 0 3735928559).2.1.entries.getD 0 default).state =
      SlotState.tombstone ∧
    (mac_table_evict_by_role ex_v1 0 3735928559).2.1.heap = [⟨0, 30⟩] ∧
    ¬ I2 (run ex_init1 [Op.insert ex_m1 none 0, Op.evictByRole 0 3735928559]) := by decide

theorem insert_probe_go_all_occupied (st : SysState) (mac : List Nat) (timeout : Int)
    (role : Nat) (index : Nat)
    (hall : ∀ j, j < st.entries.length →
      (st.entries.getD j default).state = SlotState.occupied ∧
      (st.entries.getD j default).mac ≠ mac) :
    ∀ fuel i, 0 < st.entries.length →
      insert_probe_go fuel st mac timeout role index i none =
        (MacResult.full, st, [⟨-1, mac, MacResult.full⟩]) := by
  intro fuel
  induction fuel with
  | zero => intro i _; rfl
  | succ n ih =>
    intro i hN
    have hp : (index + i) % st.entries.length < st.entries.length := Nat.mod_lt _ hN
    obtain ⟨hocc, hne⟩ := hall _ hp
    simp only [insert_probe_go, hocc, hne, if_true, if_false, ite_true, ite_false,
      reduceIte]
    exact ih (i + 1) hN

/-- C6: when the probe cycle of an insert has no EMPTY slot, no TOMBSTONE
slot and no OCCUPIED slot holding the key (every slot OCCUPIED by a
different key), mac_table_insert_ex returns MAC_TABLE_FULL, emits one Full
event whose slot index is the sentinel -1, and leaves the entire state
(slots, queue, counters) unchanged. -/
theorem insert_full_no_mutation (st : SysState) (mac : List Nat) (opts : Option InsertOpts)
    (now : Int)
    (hall : ∀ j, j < st.entries.length →
      (st.entries.getD j default).state = SlotState.occupied ∧
      (st.entries.getD j default).mac ≠ mac) :
    mac_table_insert_ex st mac opts now = (MacResult.full, st, [⟨-1, mac, MacResult.full⟩]) := by
  unfold mac_table_insert_ex
  rcases Nat.eq_zero_or_pos st.entries.length with h0 | hN
  · rw [h0]
    rfl
  · exact insert_probe_go_all_occupied st mac _ _ _ hall _ 0 hN

/-- Witness for insert_full_no_mutation: inserting a fourth key into the
full capacity-3 walkthrough state returns Full with no mutation. -/
theorem insert_full_no_mutation_witness :
    mac_table_insert_ex ex_stC ex_m4 none 5 =
      (MacResult.full, ex_stC, [⟨-1, ex_m4, MacResult.full⟩]) :=
  insert_full_no_mutation ex_stC ex_m4 none 5 (by decide)

theorem probe_exists (index q N : Nat) (hq : q < N) :
    ∃ t, t < N ∧ (index + t) % N = q := by
  have hN : 0 < N := Nat.lt_of_le_of_lt (Nat.zero_le q) hq
  have ha : index % N < N := Nat.mod_lt _ hN
  refine ⟨(q + N - index % N) % N, Nat.mod_lt _ hN, ?_⟩
  have e2 : (q + N - index % N) % N ≡ q + N - index % N [MOD N] := Nat.mod_modEq _ N
  have e3 : index + (q + N - index % N) % N ≡ index % N + (q + N - index % N) [MOD N] :=
    Nat.ModEq.add (Nat.mod_modEq index N).symm e2
  have e4 : index % N + (q + N - index % N) = q + N := by omega
  have e4m : index % N + (q + N - index % N) ≡ q + N [MOD N] := by
    rw [e4]
  have e5 : index + (q + N - index % N) % N ≡ q + N [MOD N] := e3.trans e4m
  have e6 : q + N ≡ q [MOD N] := by
    show (q + N) % N = q % N
    exact Nat.add_mod_right q N
  have e7 : (index + (q + N - index % N) % N) % N = q % N := e5.trans e6
  rwa [Nat.mod_eq_of_lt hq] at e7

theorem probe_inj {index N s t : Nat} (hs : s < N) (ht : t < N)
    (h : (index + s) % N = (index + t) % N) : s = t := by
  have h1 : index + s ≡ index + t [MOD N] := h
  have h2 : s ≡ t [MOD N] := Nat.ModEq.add_left_cancel' index h1
  have h3 : s % N = t % N := h2
  rwa [Nat.mod_eq_of_lt hs, Nat.mod_eq_of_lt ht] at h3

theorem insert_probe_go_first_tombstone (st : SysState) (mac : List Nat) (timeout : Int)
    (role : Nat) (index : Nat)
    (hne : ∀ j, j < st.entries.length →
      (st.entries.getD j default).state ≠ SlotState.empty)
    (hnm : ∀ j, j < st.entries.length →
      (st.entries.getD j default).state = SlotState.occupied →
      (st.entries.getD j default).mac ≠ mac)
    (htomb : ∃ j, j < st.entries.length ∧
      (st.entries.getD j default).state = SlotState.tombstone) :
    ∀ fuel i ft, fuel + i = st.entries.length →
      ((ft = none ∧ ∀ s, s < i →
          (st.entries.getD ((index + s) % st.entries.length) default).state =
            SlotState.occupied) ∨
        (∃ t, t < i ∧ ft = some ((index + t) % st.entries.length) ∧
          (st.entries.getD ((index + t) % st.entries.length) default).state =
            SlotState.tombstone ∧
          ∀ s, s < t →
            (st.entries.getD ((index + s) % st.entries.length) default).state =
              SlotState.occupied)) →
      ∃ t0, t0 < st.entries.length ∧
        (st.entries.getD ((index + t0) % st.entries.length) default).state =
          SlotState.tombstone ∧
        (∀ s, s < t0 →
          (st.entries.getD ((index + s) % st.entries.length) default).state =
            SlotState.occupied) ∧
        insert_probe_go fuel st mac timeout role index i ft =
          insert_probe_go 0 st mac timeout role index 0
            (some ((index + t0) % st.entries.length)) := by
  intro fuel
  induction fuel with
  | zero =>
    intro i ft hsum hinv
    rcases hinv with ⟨hftn, hall⟩ | ⟨t, ht, hfteq, htmb, hocc⟩
    · exfalso
      obtain ⟨j, hj, hjt⟩ := htomb
      obtain ⟨t, htn, hpt⟩ := probe_exists index j st.entries.length hj
      have hto := hall t (by omega)
      rw [hpt] at hto
      rw [hto] at hjt
      exact SlotState.noConfusion hjt
    · refine ⟨t, by omega, htmb, hocc, ?_⟩
      rw [hfteq]
      simp only [insert_probe_go]
  | succ n ih =>
    intro i ft hsum hinv
    have hN : 0 < st.entries.length := by omega
    have hp : (index + i) % st.entries.length < st.entries.length := Nat.mod_lt _ hN
    cases hstate : (st.entries.getD ((index + i) % st.entries.length) default).state with
    | empty => exact absurd hstate (hne _ hp)
    | tombstone =>
      have hstep : insert_probe_go (n + 1) st mac timeout role index i ft =
          insert_probe_go n st mac timeout role index (i + 1)
            (if ft = none then some ((index + i) % st.entries.length) else ft) := by
        simp only [insert_probe_go]
        rw [hstate]
        simp
      rw [hstep]
      rcases hinv with ⟨hftn, hall⟩ | ⟨t, ht, hfteq, htmb, hocc⟩
      · subst hftn
        refine ih (i + 1) (some ((index + i) % st.entries.length)) (by omega) (Or.inr ?_)
        exact ⟨i, by omega, by simp, hstate, hall⟩
      · have hfts : ft ≠ none := by
          rw [hfteq]
          simp
        rw [if_neg hfts]
        refine ih (i + 1) ft (by omega) (Or.inr ?_)
        exact ⟨t, by omega, hfteq, htmb, hocc⟩
    | occupied =>
      have hm : (st.entries.getD ((index + i) % st.entries.length) default).mac ≠ mac :=
        hnm _ hp hstate
      have hstep : insert_probe_go (n + 1) st mac timeout role index i ft =
          insert_probe_go n st mac timeout role index (i + 1) ft := by
        simp only [insert_probe_go]
        rw [hstate]
        simp
        intro h2
        exact absurd h2 (by simpa using hm)
      rw [hstep]
      rcases hinv with ⟨hftn, hall⟩ | ⟨t, ht, hfteq, htmb, hocc⟩
      · subst hftn
        refine ih (i + 1) none (by omega) (Or.inl ⟨rfl, ?_⟩)
        intro s hs
        rcases Nat.lt_or_ge s i with h1 | h1
        · exact hall s h1
        · have : s = i := by omega
          rw [this]
          exact hstate
      · refine ih (i + 1) ft (by omega) (Or.inr ?_)
        exact ⟨t, by omega, hfteq, htmb, hocc⟩

/-- C7: when the probe cycle of an insert has no OCCUPIED slot holding the
key and no EMPTY slot, but at least one TOMBSTONE, mac_table_insert_ex
claims the first TOMBSTONE met in probe order (offset t0 below, every
earlier probe position being OCCUPIED): it returns Inserted, writes the
key with the computed timeout and role into that slot, bumps
total_inserts and active_entries, re-queues the slot and emits one
Inserted event for it. -/
theorem insert_reuses_first_tombstone (st : SysState) (mac : List Nat)
    (opts : Option InsertOpts) (now : Int)
    (hne : ∀ j, j < st.entries.length →
      (st.entries.getD j default).state ≠ SlotState.empty)
    (hnm : ∀ j, j < st.entries.length →
      (st.entries.getD j default).state = SlotState.occupied →
      (st.entries.getD j default).mac ≠ mac)
    (htomb : ∃ j, j < st.entries.length ∧
      (st.entries.getD j default).state = SlotState.tombstone) :
    ∃ t0, t0 < st.entries.length ∧
      (st.entries.getD ((mac_hash mac st.entries.length + t0) % st.entries.length)
        default).state = SlotState.tombstone ∧
      (∀ s, s < t0 →
        (st.entries.getD ((mac_hash mac st.entries.length + s) % st.entries.length)
          default).state = SlotState.occupied) ∧
      mac_table_insert_ex st mac opts now =
        (MacResult.inserted,
         expiry_manager_add_or_update
           { st with
             entries := st.entries.set
               ((mac_hash mac st.entries.length + t0) % st.entries.length)
               ⟨mac, insert_timeout st now opts, SlotState.occupied, insert_role opts⟩,
             stats := { st.stats with
                        total_inserts := usucc st.stats.total_inserts,
                        active_entries := usucc st.stats.active_entries } }
           ((mac_hash mac st.entries.length + t0) % st.entries.length),
         [⟨(((mac_hash mac st.entries.length + t0) % st.entries.length : Nat) : Int), mac,
           MacResult.inserted⟩]) := by
  obtain ⟨t0, ht0, htmb, hocc, heq⟩ :=
    insert_probe_go_first_tombstone st mac (insert_timeout st now opts) (insert_role opts)
      (mac_hash mac st.entries.length) hne hnm htomb st.entries.length 0 none
      (by omega)
      (Or.inl ⟨rfl, fun s hs => absurd hs (Nat.not_lt_zero s)⟩)
  refine ⟨t0, ht0, htmb, hocc, ?_⟩
  unfold mac_table_insert_ex
  rw [heq]
  rfl

/-- ex_stC after deleting ex_m2 (slot 0 becomes the only TOMBSTONE). -/
def ex_stD : SysState := (mac_table_delete ex_stC ex_m2).2.1

/-- Witness for insert_reuses_first_tombstone: the capacity-3 walkthrough.
After filling the table with ex_m1, ex_m2, ex_m3 and deleting ex_m2, a
fresh insert of ex_m4 claims the tombstone left by ex_m2. -/
theorem insert_reuses_first_tombstone_witness :
    (mac_table_delete ex_stC ex_m2).1 = MacResult.deleted ∧
    (ex_stD.entries.getD 0 default).state = SlotState.tombstone ∧
    (∃ t0, t0 < ex_stD.entries.length ∧
      (ex_stD.entries.getD ((mac_hash ex_m4 ex_stD.entries.length + t0) %
        ex_stD.entries.length) default).state = SlotState.tombstone ∧
      (∀ s, s < t0 →
        (ex_stD.entries.getD ((mac_hash ex_m4 ex_stD.entries.length + s) %
          ex_stD.entries.length) default).state = SlotState.occupied) ∧
      mac_table_insert_ex ex_stD ex_m4 none 9 =
        (MacResult.inserted,
         expiry_manager_add_or_update
           { ex_stD with
             entries := ex_stD.entries.set
               ((mac_hash ex_m4 ex_stD.entries.length + t0) % ex_stD.entries.length)
               ⟨ex_m4, insert_timeout ex_stD 9 none, SlotState.occupied, insert_role none⟩,
             stats := { ex_stD.stats with
                        total_inserts := usucc ex_stD.stats.total_inserts,
                        active_entries := usucc ex_stD.stats.active_entries } }
           ((mac_hash ex_m4 ex_stD.entries.length + t0) % ex_stD.entries.length),
         [⟨(((mac_hash ex_m4 ex_stD.entries.length + t0) % ex_stD.entries.length : Nat) : Int),
           ex_m4, MacResult.inserted⟩])) :=
  ⟨by decide, by decide,
    insert_reuses_first_tombstone ex_stD ex_m4 none 9 (by decide) (by decide) (by decide)⟩

theorem occCount_set_not_to_occ (l : List Entry) (p : Nat) (e' : Entry) (hp : p < l.length)
    (hold : (l.getD p default).state = SlotState.occupied)
    (hnew : e'.state ≠ SlotState.occupied) :
    occCount (l.set p e') + 1 = occCount l := by
  have h := occCount_set_balance l p e' hp
  rw [hold] at h
  simp only [beq_self_eq_true, if_true] at h
  have h2 : (e'.state == SlotState.occupied) = false := by
    simpa using hnew
  rw [h2] at h
  simpa using h

theorem occCount_set_to_occ (l : List Entry) (p : Nat) (e' : Entry) (hp : p < l.length)
    (hold : (l.getD p default).state ≠ SlotState.occupied)
    (hnew : e'.state = SlotState.occupied) :
    occCount (l.set p e') = occCount l + 1 := by
  have h := occCount_set_balance l p e' hp
  have h1 : ((l.getD p default).state == SlotState.occupied) = false := by
    simpa using hold
  rw [h1, hnew] at h
  simpa using h

theorem occCount_set_keep_occ (l : List Entry) (p : Nat) (e' : Entry) (hp : p < l.length)
    (hold : (l.getD p default).state = SlotState.occupied)
    (hnew : e'.state = SlotState.occupied) :
    occCount (l.set p e') = occCount l := by
  have h := occCount_set_balance l p e' hp
  rw [hold, hnew] at h
  simpa using h

theorem WFStats_manager_delete (st : SysState) (k : Nat) :
    WFStats (expiry_manager_delete st k) ↔ WFStats st := by
  unfold WFStats I4
  rw [manager_delete_entries, manager_delete_stats]

theorem WFStats_add_or_update (st : SysState) (k : Nat) :
    WFStats (expiry_manager_add_or_update st k) ↔ WFStats st := by
  unfold WFStats I4
  rw [add_or_update_entries, add_or_update_stats]

theorem WFStats_claim_slot (st : SysState) (p : Nat) (mac : List Nat) (timeout : Int)
    (role : Nat) (hw : WFStats st) (hp : p < st.entries.length)
    (hns : (st.entries.getD p default).state ≠ SlotState.occupied) :
    WFStats
      { st with
        entries := st.entries.set p ⟨mac, timeout, SlotState.occupied, role⟩,
        stats := { st.stats with
                   total_inserts := usucc st.stats.total_inserts,
                   active_entries := usucc st.stats.active_entries } } := by
  obtain ⟨h1, h2, h3⟩ := hw
  have hcount : occCount (st.entries.set p ⟨mac, timeout, SlotState.occupied, role⟩) =
      occCount st.entries + 1 :=
    occCount_set_to_occ st.entries p _ hp hns rfl
  have hlt : occCount st.entries < st.entries.length :=
    occCount_lt_length st.entries p hp hns
  refine ⟨by simpa using h1, by simpa using h2, ?_⟩
  unfold I4 at h3 ⊢
  simp only [hcount]
  rw [h3]
  exact usucc_eq (by omega)

theorem WFStats_tombstone_slot (st : SysState) (p : Nat) (e' : Entry) (s' : Stats)
    (hw : WFStats st) (hp : p < st.entries.length)
    (hocc : (st.entries.getD p default).state = SlotState.occupied)
    (hts : e'.state ≠ SlotState.occupied)
    (hact : s'.active_entries = upred st.stats.active_entries) :
    WFStats { st with entries := st.entries.set p e', stats := s' } := by
  obtain ⟨h1, h2, h3⟩ := hw
  have hcount : occCount (st.entries.set p e') + 1 = occCount st.entries :=
    occCount_set_not_to_occ st.entries p e' hp hocc hts
  have hpos : 0 < occCount st.entries := occCount_pos st.entries p hp hocc
  have hle : occCount st.entries ≤ st.entries.length := occCount_le_length st.entries
  refine ⟨by simpa using h1, by simpa using h2, ?_⟩
  unfold I4 at h3 ⊢
  simp only [hact, h3]
  rw [upred_eq hpos (by omega)]
  omega

theorem WFStats_refresh_slot (st : SysState) (p : Nat) (e' : Entry)
    (hw : WFStats st) (hp : p < st.entries.length)
    (hocc : (st.entries.getD p default).state = SlotState.occupied)
    (hnew : e'.state = SlotState.occupied) :
    WFStats { st with entries := st.entries.set p e' } := by
  obtain ⟨h1, h2, h3⟩ := hw
  have hcount : occCount (st.entries.set p e') = occCount st.entries :=
    occCount_set_keep_occ st.entries p e' hp hocc hnew
  exact ⟨by simpa using h1, by simpa using h2, by unfold I4 at h3 ⊢; simpa [hcount] using h3⟩

theorem getD_default_of_ge {α : Type} [Inhabited α] (l : List α) (i : Nat)
    (h : l.length ≤ i) : l.getD i default = default := by
  simp [List.getD, List.getElem?_eq_none h]

theorem occCount_replicate (k : Nat) (e : Entry) (h : e.state ≠ SlotState.occupied) :
    occCount (List.replicate k e) = 0 := by
  induction k with
  | zero => rfl
  | succ n ih =>
    simp only [List.replicate, occCount, List.countP_cons] at *
    simp [h, ih]

theorem WFStats_set_heap (st : SysState) (h' : List HeapEntry) :
    WFStats { st with heap := h' } ↔ WFStats st := Iff.rfl

theorem insert_probe_go_WFStats (mac : List Nat) (timeout : Int) (role : Nat) (index : Nat) :
    ∀ fuel st i ft, WFStats st →
      (∀ f, ft = some f → f < st.entries.length ∧
        (st.entries.getD f default).state = SlotState.tombstone) →
      WFStats (insert_probe_go fuel st mac timeout role index i ft).2.1 := by
  intro fuel
  induction fuel with
  | zero =>
    intro st i ft hw hft
    cases ft with
    | none => exact hw
    | some f =>
      obtain ⟨hf, hfts⟩ := hft f rfl
      simp only [insert_probe_go]
      exact (WFStats_add_or_update _ _).mpr
        (WFStats_claim_slot st f mac timeout role hw hf (by rw [hfts]; simp))
  | succ n ih =>
    intro st i ft hw hft
    have hN : 0 < st.entries.length := hw.1
    have hp : (index + i) % st.entries.length < st.entries.length := Nat.mod_lt _ hN
    simp only [insert_probe_go]
    split
    · next hocc =>
      split
      · next hmac =>
        exact (WFStats_add_or_update _ _).mpr
          (WFStats_refresh_slot st _ _ hw hp (by simpa using hocc) (by simpa using hocc))
      · next hmac => exact ih st (i + 1) ft hw hft
    · next hnocc =>
      split
      · next hts =>
        refine ih st (i + 1) _ hw ?_
        intro f hfeq
        by_cases hftn : ft = none
        · rw [if_pos hftn] at hfeq
          obtain rfl : (index + i) % st.entries.length = f := Option.some_inj.mp hfeq
          exact ⟨hp, by simpa using hts⟩
        · rw [if_neg hftn] at hfeq
          exact hft f hfeq
      · next hnts =>
        exact (WFStats_add_or_update _ _).mpr
          (WFStats_claim_slot st _ mac timeout role hw hp (by simpa using hnocc))

theorem mac_table_insert_ex_WFStats (st : SysState) (mac : List Nat)
    (opts : Option InsertOpts) (now : Int) (hw : WFStats st) :
    WFStats (mac_table_insert_ex st mac opts now).2.1 := by
  unfold mac_table_insert_ex
  exact insert_probe_go_WFStats mac _ _ _ _ st 0 none hw (fun f hf => Option.noConfusion hf)

theorem delete_probe_go_WFStats (mac : List Nat) (index : Nat) :
    ∀ fuel st i, WFStats st → WFStats (delete_probe_go fuel st mac index i).2.1 := by
  intro fuel
  induction fuel with
  | zero => intro st i hw; exact hw
  | succ n ih =>
    intro st i hw
    have hN : 0 < st.entries.length := hw.1
    have hp : (index + i) % st.entries.length < st.entries.length := Nat.mod_lt _ hN
    simp only [delete_probe_go]
    split
    · exact hw
    · split
      · next hcond =>
        exact (WFStats_manager_delete _ _).mpr
          (WFStats_tombstone_slot st _ _ _ hw hp (by simpa using hcond.1) (by simp) rfl)
      · exact ih st (i + 1) hw

theorem mac_table_delete_WFStats (st : SysState) (mac : List Nat) (hw : WFStats st) :
    WFStats (mac_table_delete st mac).2.1 := by
  unfold mac_table_delete
  exact delete_probe_go_WFStats mac _ _ st 0 hw

theorem mac_table_delete_by_index_WFStats (st : SysState) (index : Nat) (hw : WFStats st) :
    WFStats (mac_table_delete_by_index st index).1 := by
  unfold mac_table_delete_by_index
  split
  · exact hw
  · next hidx =>
    dsimp only
    split
    · next hocc =>
      exact (WFStats_manager_delete _ _).mpr
        (WFStats_tombstone_slot st _ _ _ hw (by omega) (by simpa using hocc) (by simp) rfl)
    · exact hw

theorem remove_oldest_go_WFStats (protected_roles : Option Nat) :
    ∀ fuel st i, WFStats st → WFStats (remove_oldest_go fuel st protected_roles i).2.1 := by
  intro fuel
  induction fuel with
  | zero => intro st i hw; exact hw
  | succ n ih =>
    intro st i hw
    simp only [remove_oldest_go]
    split
    · exact ih st (i + 1) hw
    · next hlt =>
      split
      · exact ih st (i + 1) hw
      · next hocc =>
        split
        · exact ih st (i + 1) hw
        · exact (WFStats_manager_delete _ _).mpr
            (WFStats_tombstone_slot st _ _ _ hw (by omega)
              (by simpa using not_ne_iff.mp hocc) (by simp) rfl)

theorem mac_table_remove_oldest_WFStats (st : SysState) (protected_roles : Option Nat)
    (hw : WFStats st) : WFStats (mac_table_remove_oldest st protected_roles).2.1 := by
  unfold mac_table_remove_oldest
  split
  · exact hw
  · exact remove_oldest_go_WFStats protected_roles _ st 0 hw

theorem evict_by_role_go_WFStats (role index_garbage : Nat) :
    ∀ fuel st i count, WFStats st →
      WFStats (evict_by_role_go fuel st role index_garbage i count).2.1 := by
  intro fuel
  induction fuel with
  | zero => intro st i count hw; exact hw
  | succ n ih =>
    intro st i count hw
    simp only [evict_by_role_go]
    split
    · next hcond =>
      have hi : i < st.entries.length := by
        by_contra hge
        rw [getD_default_of_ge st.entries i (by omega)] at hcond
        exact absurd hcond.1 (by simp [default, Inhabited.default])
      exact ih _ (i + 1) (count + 1) ((WFStats_manager_delete _ _).mpr
        (WFStats_tombstone_slot st _ _ _ hw hi (by simpa using hcond.1) (by simp) rfl))
    · exact ih st (i + 1) count hw

theorem mac_table_evict_by_role_WFStats (st : SysState) (role index_garbage : Nat)
    (hw : WFStats st) : WFStats (mac_table_evict_by_role st role index_garbage).2.1 :=
  evict_by_role_go_WFStats role index_garbage _ st 0 0 hw

theorem clear_go_WFStats (index_garbage : Nat) :
    ∀ fuel st i count, WFStats st →
      WFStats (clear_go fuel st index_garbage i count).2.1 := by
  intro fuel
  induction fuel with
  | zero => intro st i count hw; exact hw
  | succ n ih =>
    intro st i count hw
    simp only [clear_go]
    split
    · next hcond =>
      have hi : i < st.entries.length := by
        by_contra hge
        rw [getD_default_of_ge st.entries i (by omega)] at hcond
        exact absurd hcond (by simp [default, Inhabited.default])
      exact ih _ (i + 1) (count + 1) ((WFStats_manager_delete _ _).mpr
        (WFStats_tombstone_slot st _ _ _ hw hi (by simpa using hcond) (by simp) rfl))
    · exact ih st (i + 1) count hw

theorem mac_table_clear_WFStats (st : SysState) (index_garbage : Nat) (hw : WFStats st) :
    WFStats (mac_table_clear st index_garbage).2.1 :=
  clear_go_WFStats index_garbage _ st 0 0 hw

theorem expiry_timer_go_WFStats (now : Int) :
    ∀ fuel st, WFStats st → WFStats (expiry_timer_go fuel st now).1 := by
  intro fuel
  induction fuel with
  | zero => intro st hw; exact hw
  | succ n ih =>
    intro st hw
    simp only [expiry_timer_go]
    split
    · split
      · exact hw
      · next popped rest hpop =>
        have hw0 : WFStats { st with heap := rest } := (WFStats_set_heap st rest).mpr hw
        split
        · next hvalid =>
          exact ih _ (WFStats_tombstone_slot { st with heap := rest } _ _ _ hw0 hvalid.1
            (by simpa using hvalid.2.1) (by simp) rfl)
        · exact ih _ hw0
    · exact hw

theorem expiry_timer_callback_WFStats (st : SysState) (now : Int) (hw : WFStats st) :
    WFStats (expiry_timer_callback st now).1 :=
  expiry_timer_go_WFStats now _ st hw

theorem mac_table_reset_stats_WFStats (st : SysState) (hw : WFStats st) :
    WFStats ((mac_table_reset_stats (some st)).2.getD st) := by
  obtain ⟨h1, h2, h3⟩ := hw
  exact ⟨h1, h2, h3⟩

theorem step_WFStats (st : SysState) (op : Op) (hw : WFStats st) :
    WFStats (Op.step st op) := by
  cases op with
  | insert mac opts now => exact mac_table_insert_ex_WFStats st mac opts now hw
  | deleteKey mac => exact mac_table_delete_WFStats st mac hw
  | deleteByIndex index => exact mac_table_delete_by_index_WFStats st index hw
  | removeOldest protected_roles => exact mac_table_remove_oldest_WFStats st protected_roles hw
  | evictByRole role index_garbage => exact mac_table_evict_by_role_WFStats st role index_garbage hw
  | clearAll index_garbage => exact mac_table_clear_WFStats st index_garbage hw
  | timerFire now => exact expiry_timer_callback_WFStats st now hw
  | resetStats => exact mac_table_reset_stats_WFStats st hw
  | queryExists mac => exact hw
  | queryGetByIndex index => exact hw
  | queryGetStats => exact hw

theorem run_WFStats (ops : List Op) : ∀ st, WFStats st → WFStats (run st ops) := by
  induction ops with
  | nil => intro st hw; exact hw
  | cons op rest ih =>
    intro st hw
    exact ih (Op.step st op) (step_WFStats st op hw)

/-- C4: from a successfully initialized table, after any sequence of
public operations the stats field active_entries equals the number of
OCCUPIED slots (invariant I4).  Since the operation list is universally
quantified, the invariant holds immediately after every operation of any
run.  size < 2 ^ 64 reflects that the capacity is a size_t value. -/
theorem active_entries_matches_occupied (size ttl : Nat) (st0 : SysState)
    (hsize : size < U64) (hinit : mac_table_init size ttl = some st0) (ops : List Op) :
    I4 (run st0 ops) := by
  have hw0 : WFStats st0 := by
    unfold mac_table_init at hinit
    split at hinit
    · exact Option.noConfusion hinit
    · next hsz =>
      obtain rfl := Option.some_inj.mp hinit
      refine ⟨by simpa using Nat.pos_of_ne_zero hsz, by simpa using hsize, ?_⟩
      unfold I4
      simp only []
      rw [occCount_replicate _ _ (by simp)]
  exact (run_WFStats ops st0 hw0).2.2

/-- Witness for active_entries_matches_occupied: a concrete mixed run of
inserts, deletes, a timer fire, a protected eviction, a clear and a stats
reset on a capacity-3 table. -/
theorem active_entries_matches_occupied_witness :
    I4 (run ex_init3 [Op.insert ex_m1 (ex_opts 10 0) 0, Op.insert ex_m2 (ex_opts 5 1) 0,
      Op.deleteKey ex_m1, Op.timerFire 50, Op.removeOldest (some 1),
      Op.clearAll 999, Op.resetStats]) :=
  active_entries_matches_occupied 3 30 ex_init3 (by decide) (by decide) _

/-- Inductive invariant for insert-only runs from a fresh table: unique
keys among OCCUPIED slots, no TOMBSTONE slots, and every OCCUPIED slot is
reachable from the hash of its own key through a prefix of OCCUPIED
probe positions. -/
def InsertInv (l : List Entry) : Prop :=
  (∀ i j, i < l.length → j < l.length → i ≠ j →
    (l.getD i default).state = SlotState.occupied →
    (l.getD j default).state = SlotState.occupied →
    (l.getD i default).mac ≠ (l.getD j default).mac) ∧
  (∀ j, j < l.length → (l.getD j default).state ≠ SlotState.tombstone) ∧
  (∀ j, j < l.length → (l.getD j default).state = SlotState.occupied →
    ∀ t, t < l.length →
      (mac_hash (l.getD j default).mac l.length + t) % l.length = j →
      ∀ s, s < t →
        (l.getD ((mac_hash (l.getD j default).mac l.length + s) % l.length)
          default).state = SlotState.occupied)

theorem InsertInv_congr (l l' : List Entry) (hlen : l'.length = l.length)
    (hst : ∀ q, (l'.getD q default).state = (l.getD q default).state)
    (hmac : ∀ q, (l'.getD q default).mac = (l.getD q default).mac)
    (h : InsertInv l) : InsertInv l' := by
  obtain ⟨h1, h2, h3⟩ := h
  refine ⟨?_, ?_, ?_⟩
  · intro a b ha hb hab hoa hob
    rw [hlen] at ha hb
    rw [hst] at hoa hob
    rw [hmac, hmac]
    exact h1 a b ha hb hab hoa hob
  · intro j hj
    rw [hlen] at hj
    rw [hst]
    exact h2 j hj
  · intro j hj hjo t ht hteq s hs
    rw [hlen] at hj ht
    rw [hst] at hjo
    rw [hmac, hlen] at hteq ⊢
    rw [hst]
    exact h3 j hj hjo t ht hteq s hs

theorem insert_probe_go_InsertInv (st : SysState) (mac : List Nat) (timeout : Int)
    (role : Nat) (hinv : InsertInv st.entries) :
    ∀ fuel i, fuel + i = st.entries.length →
      (∀ s, s < i →
        (st.entries.getD ((mac_hash mac st.entries.length + s) % st.entries.length)
          default).state = SlotState.occupied ∧
        (st.entries.getD ((mac_hash mac st.entries.length + s) % st.entries.length)
          default).mac ≠ mac) →
      InsertInv (insert_probe_go fuel st mac timeout role
        (mac_hash mac st.entries.length) i none).2.1.entries := by
  intro fuel
  induction fuel with
  | zero => intro i hsum hpre; exact hinv
  | succ n ih =>
    intro i hsum hpre
    have hN : 0 < st.entries.length := by omega
    have hiN : i < st.entries.length := by omega
    have hp : (mac_hash mac st.entries.length + i) % st.entries.length < st.entries.length :=
      Nat.mod_lt _ hN
    simp only [insert_probe_go]
    split
    · next hocc =>
      split
      · next hmac =>
        dsimp only
        rw [add_or_update_entries]
        dsimp only
        refine InsertInv_congr st.entries _ (by simp) ?_ ?_ hinv
        · intro q
          by_cases hq : q = (mac_hash mac st.entries.length + i) % st.entries.length
          · subst hq
            rw [getD_set_self _ _ _ hp]
          · rw [getD_set_ne _ _ _ _ (fun h => hq h.symm)]
        · intro q
          by_cases hq : q = (mac_hash mac st.entries.length + i) % st.entries.length
          · subst hq
            rw [getD_set_self _ _ _ hp]
          · rw [getD_set_ne _ _ _ _ (fun h => hq h.symm)]
      · next hmac =>
        refine ih (i + 1) (by omega) ?_
        intro s hs
        rcases Nat.lt_or_ge s i with h1 | h1
        · exact hpre s h1
        · have hsi : s = i := by omega
          subst hsi
          exact ⟨by simpa using hocc, by simpa using hmac⟩
    · next hnocc =>
      split
      · next hts => exact absurd (by simpa using hts) (hinv.2.1 _ hp)
      · next hnts =>
        dsimp only
        rw [add_or_update_entries]
        dsimp only
        have hnocc2 : (st.entries.getD ((mac_hash mac st.entries.length + i) %
            st.entries.length) default).state ≠ SlotState.occupied := by simpa using hnocc
        have hkey : ∀ q, q < st.entries.length →
            q ≠ (mac_hash mac st.entries.length + i) % st.entries.length →
            (st.entries.getD q default).state = SlotState.occupied →
            (st.entries.getD q default).mac ≠ mac := by
          intro q hq hqp hqocc hqmac
          obtain ⟨t, htN, hpt⟩ :=
            probe_exists (mac_hash mac st.entries.length) q st.entries.length hq
          rcases lt_trichotomy t i with h1 | h1 | h1
          · obtain ⟨_, hm⟩ := hpre t h1
            rw [hpt] at hm
            exact hm hqmac
          · subst h1
            exact hqp hpt.symm
          · have h3 := hinv.2.2 q hq hqocc t htN (by rw [hqmac]; exact hpt) i h1
            rw [hqmac] at h3
            exact hnocc2 h3
        refine ⟨?_, ?_, ?_⟩
        · intro a b ha hb hab hoa hob
          rw [List.length_set] at ha hb
          by_cases hap : a = (mac_hash mac st.entries.length + i) % st.entries.length
          · subst hap
            rw [getD_set_self _ _ _ hp] at hoa ⊢
            by_cases hbp : b = (mac_hash mac st.entries.length + i) % st.entries.length
            · exact absurd hbp (Ne.symm hab)
            · rw [getD_set_ne _ _ _ _ (fun h => hbp h.symm)] at hob ⊢
              exact fun h => hkey b hb hbp hob h.symm
          · rw [getD_set_ne _ _ _ _ (fun h => hap h.symm)] at hoa ⊢
            by_cases hbp : b = (mac_hash mac st.entries.length + i) % st.entries.length
            · subst hbp
              rw [getD_set_self _ _ _ hp] at hob ⊢
              exact hkey a ha hap hoa
            · rw [getD_set_ne _ _ _ _ (fun h => hbp h.symm)] at hob ⊢
              exact hinv.1 a b ha hb hab hoa hob
        · intro j hj
          rw [List.length_set] at hj
          by_cases hjp : j = (mac_hash mac st.entries.length + i) % st.entries.length
          · subst hjp
            rw [getD_set_self _ _ _ hp]
            simp
          · rw [getD_set_ne _ _ _ _ (fun h => hjp h.symm)]
            exact hinv.2.1 j hj
        · intro j hj hjo t ht hteq s hs
          rw [List.length_set] at hj ht hteq ⊢
          by_cases hjp : j = (mac_hash mac st.entries.length + i) % st.entries.length
          · subst hjp
            rw [getD_set_self _ _ _ hp] at hteq ⊢
            have hti : t = i := probe_inj ht hiN hteq
            subst hti
            have hsN : s < st.entries.length := by omega
            have hqs : (mac_hash mac st.entries.length + s) % st.entries.length ≠
                (mac_hash mac st.entries.length + t) % st.entries.length := by
              intro h
              have := probe_inj hsN hiN h
              omega
            rw [getD_set_ne _ _ _ _ (fun h => hqs h.symm)]
            exact (hpre s hs).1
          · rw [getD_set_ne _ _ _ _ (fun h => hjp h.symm)] at hjo hteq ⊢
            have h3 := hinv.2.2 j hj hjo t ht hteq s hs
            have hqs : (mac_hash (st.entries.getD j default).mac st.entries.length + s) %
                st.entries.length ≠
                (mac_hash mac st.entries.length + i) % st.entries.length := by
              intro h
              rw [h] at h3
              exact hnocc2 h3
            rw [getD_set_ne _ _ _ _ (fun h => hqs h.symm)]
            exact h3

theorem mac_table_insert_ex_InsertInv (st : SysState) (mac : List Nat)
    (opts : Option InsertOpts) (now : Int) (hinv : InsertInv st.entries) :
    InsertInv (mac_table_insert_ex st mac opts now).2.1.entries := by
  unfold mac_table_insert_ex
  exact insert_probe_go_InsertInv st mac _ _ hinv st.entries.length 0 (by omega)
    (fun s hs => absurd hs (Nat.not_lt_zero s))

/-- C3: starting from a freshly initialized table, after any sequence of
insert operations no two OCCUPIED slots hold the same 6-byte key
(invariant I1): inserting a key that is already present refreshes its
existing slot in place instead of occupying a second slot. -/
theorem insert_sequences_unique_keys (size ttl : Nat) (st0 : SysState)
    (hinit : mac_table_init size ttl = some st0)
    (inserts : List (List Nat × Option InsertOpts × Int)) :
    I1 (run st0 (inserts.map (fun a => Op.insert a.1 a.2.1 a.2.2))) := by
  have h0 : InsertInv st0.entries := by
    unfold mac_table_init at hinit
    split at hinit
    · exact Option.noConfusion hinit
    · obtain rfl := Option.some_inj.mp hinit
      have hstate : ∀ j, (((List.replicate size
          (⟨List.replicate 6 0, 0, SlotState.empty, 0⟩ : Entry)).getD j default)).state =
          SlotState.empty := by
        intro j
        rcases Nat.lt_or_ge j size with h | h
        · rw [List.getD_eq_getElem _ _ (by simpa using h)]
          simp
        · rw [getD_default_of_ge _ _ (by simpa using h)]
          rfl
      refine ⟨?_, ?_, ?_⟩
      · intro a b ha hb hab hoa hob
        rw [hstate] at hoa
        exact SlotState.noConfusion hoa
      · intro j hj
        rw [hstate]
        simp
      · intro j hj hjo
        rw [hstate] at hjo
        exact SlotState.noConfusion hjo
  have hrun : ∀ (l : List (List Nat × Option InsertOpts × Int)) (st : SysState),
      InsertInv st.entries →
      InsertInv (run st (l.map (fun a => Op.insert a.1 a.2.1 a.2.2))).entries := by
    intro l
    induction l with
    | nil => intro st h; exact h
    | cons a rest ih =>
      intro st h
      exact ih _ (mac_table_insert_ex_InsertInv st a.1 a.2.1 a.2.2 h)
  exact (hrun inserts st0 h0).1

/-- Witness for insert_sequences_unique_keys: three inserts on a fresh
capacity-3 table, the third re-inserting the first key. -/
theorem insert_sequences_unique_keys_witness :
    I1 (run ex_init3 ([(ex_m1, ex_opts 10 0, (0 : Int)), (ex_m2, none, 1),
      (ex_m1, none, 2)].map (fun a => Op.insert a.1 a.2.1 a.2.2))) :=
  insert_sequences_unique_keys 3 30 ex_init3 (by decide) _

theorem heap_swap_length (l : List HeapEntry) (i j : Nat) :
    (heap_swap l i j).length = l.length := by
  simp [heap_swap]

theorem heap_bubble_up_go_length :
    ∀ fuel l index, (heap_bubble_up_go fuel l index).length = l.length := by
  intro fuel
  induction fuel with
  | zero => intro l index; rfl
  | succ n ih =>
    intro l index
    simp only [heap_bubble_up_go]
    split
    · split
      · rfl
      · rw [ih, heap_swap_length]
    · rfl

theorem heap_bubble_down_go_length :
    ∀ fuel l index, (heap_bubble_down_go fuel l index).length = l.length := by
  intro fuel
  induction fuel with
  | zero => intro l index; rfl
  | succ n ih =>
    intro l index
    simp only [heap_bubble_down_go]
    repeat' split
    all_goals first | rfl | rw [ih, heap_swap_length]

theorem heap_bubble_down_length (l : List HeapEntry) (index : Nat) :
    (heap_bubble_down l index).length = l.length :=
  heap_bubble_down_go_length l.length l index

theorem min_heap_pop_length (l : List HeapEntry) (e : HeapEntry) (l' : List HeapEntry)
    (h : min_heap_pop l = some (e, l')) : l'.length + 1 = l.length := by
  cases l with
  | nil => exact Option.noConfusion h
  | cons a t =>
    simp only [min_heap_pop] at h
    injection h with hpair
    injection hpair with h1 h2
    subst h2
    split
    · rw [heap_bubble_down_length]
      simp only [List.length_take, List.length_set, List.length_cons]
      omega
    · simp only [List.length_take, List.length_set, List.length_cons]
      omega

/-- Drain step of the scheduler written after the words of the spec
(section 4.4, On fire): repeatedly pop the queue while its minimum is at
or before now; for each popped (slot_index, expiry) verify the slot is
still OCCUPIED with exactly that expiry timestamp; if it matches, mark
TOMBSTONE, decrement active_entries, increment total_expired and emit a
Timeout event; if it does not match, discard silently.  Stated as its own
function so the timer callback of the source can be proved equal to it. -/
def scheduler_fire_drain (st : SysState) (now : Int) : SysState × List Event :=
  if 0 < st.heap.length ∧ min_heap_peek st.heap ≤ now then
    match hp : min_heap_pop st.heap with
    | none => (st, [])
    | some (popped, rest) =>
      if popped.slot_index < st.entries.length ∧
          (st.entries.getD popped.slot_index default).state = SlotState.occupied ∧
          (st.entries.getD popped.slot_index default).timeout_duration =
            popped.expiry_time then
        let st1 : SysState :=
          { st with
            entries := st.entries.set popped.slot_index
              { st.entries.getD popped.slot_index default with
                state := SlotState.tombstone },
            stats := { st.stats with
                       total_expired := usucc st.stats.total_expired,
                       active_entries := upred st.stats.active_entries },
            heap := rest }
        let r := scheduler_fire_drain st1 now
        (r.1, ⟨(popped.slot_index : Int),
          (st.entries.getD popped.slot_index default).mac, MacResult.timeout⟩ :: r.2)
      else scheduler_fire_drain { st with heap := rest } now
  else (st, [])
termination_by st.heap.length
decreasing_by
  · have := min_heap_pop_length st.heap popped rest hp
    omega
  · have := min_heap_pop_length st.heap popped rest hp
    omega

theorem expiry_timer_go_eq_drain :
    ∀ fuel st now, st.heap.length ≤ fuel →
      expiry_timer_go fuel st now = scheduler_fire_drain st now := by
  intro fuel
  induction fuel with
  | zero =>
    intro st now h
    have hnil : st.heap = [] := List.length_eq_zero.mp (Nat.le_zero.mp h)
    rw [scheduler_fire_drain]
    rw [if_neg (by simp [hnil])]
    rfl
  | succ n ih =>
    intro st now h
    rw [scheduler_fire_drain]
    simp only [expiry_timer_go]
    by_cases hc : 0 < st.heap.length ∧ min_heap_peek st.heap ≤ now
    · rw [if_pos hc, if_pos hc]
      cases hpop : min_heap_pop st.heap with
      | none => rfl
      | some pr =>
        obtain ⟨popped, rest⟩ := pr
        have hlen := min_heap_pop_length st.heap popped rest hpop
        simp only [hpop]
        split
        · next hvalid =>
          rw [ih _ now (by simp only []; omega)]
        · next hvalid =>
          rw [ih _ now (by simp only []; omega)]
    · rw [if_neg hc, if_neg hc]

/-- C5: the timer callback of the source behaves exactly as the spec
describes the fire transition: it equals the spec-worded drain loop
(pop while minimum ≤ now, re-validate slot state and expiry, tombstone
plus counter updates plus one Timeout event on a match, silent discard on
a mismatch), and a fire with nothing due (empty queue or minimum after
now) performs no action: state unchanged, no events. -/
theorem expiry_timer_callback_matches_spec (st : SysState) (now : Int) :
    expiry_timer_callback st now = scheduler_fire_drain st now ∧
    (st.heap = [] ∨ now < min_heap_peek st.heap →
      expiry_timer_callback st now = (st, [])) := by
  constructor
  · exact expiry_timer_go_eq_drain st.heap.length st now (Nat.le_refl _)
  · intro h
    simp only [expiry_timer_callback]
    cases hl : st.heap.length with
    | zero => rfl
    | succ m =>
      simp only [expiry_timer_go]
      rw [if_neg]
      intro hc
      rcases h with h | h
      · rw [h] at hl
        exact Nat.noConfusion hl
      · exact absurd hc.2 (not_le.mpr h)

/-- Witness for expiry_timer_callback_matches_spec: firing at time 3,
before the earliest expiry 5 of the concrete state ex_stC, changes
nothing and emits nothing. -/
theorem expiry_timer_callback_matches_spec_witness :
    expiry_timer_callback ex_stC 3 = (ex_stC, []) :=
  (expiry_timer_callback_matches_spec ex_stC 3).2 (Or.inr (by decide))

/-- The lookup table of mac_to_str. -/
def hex_chars : List Char := "0123456789abcdef".data

/-- One table lookup hex_chars[n]; every index used is below 16. -/
def hexChar (n : Nat) : Char := hex_chars.getD n '0'

/-- mac_to_str: two lowercase hex characters per byte, a colon between
consecutive bytes, no trailing separator ((b >> 4) & 0xF is b / 16 % 16
and b & 0xF is b % 16 for byte values).  The C loop runs over the
MAC_ADDR_LEN bytes of the array; the list recursion below performs the
same iteration for the 6-byte lists used by the table. -/
def mac_to_str : List Nat → List Char
  | [] => []
  | [b] => [hexChar (b / 16 % 16), hexChar (b % 16)]
  | b :: rest => hexChar (b / 16 % 16) :: hexChar (b % 16) :: ':' :: mac_to_str rest

/-- Hex digit decoding branches of str_to_mac: digits, lowercase a-f and
uppercase A-F are all accepted, mirroring the three range tests the C
code applies to each character. -/
def hex_val (c : Char) : Option Nat :=
  if '0' ≤ c ∧ c ≤ '9' then some (c.toNat - '0'.toNat)
  else if 'a' ≤ c ∧ c ≤ 'f' then some (c.toNat - 'a'.toNat + 10)
  else if 'A' ≤ c ∧ c ≤ 'F' then some (c.toNat - 'A'.toNat + 10)
  else none

/-- Pair-reading loop of str_to_mac.  The argument counts the pairs still
to read (MAC_ADDR_LEN at entry).  The input list holds the characters of
the C string before its NUL terminator, so reading past the end of the
list corresponds to reading the terminator, which fails every hex-digit
test (empty-list patterns fall through to none); after the last pair the
C code requires the next character to be the terminator, that is, the
list to be exhausted; between pairs it requires a colon. -/
def str_to_mac_go : Nat → List Char → Option (List Nat)
  | n + 1, c1 :: c2 :: rest =>
    match hex_val c1, hex_val c2 with
    | some hi, some lo =>
      if n = 0 then
        if rest = [] then some [hi * 16 + lo] else none
      else
        match rest with
        | ':' :: rest2 => (str_to_mac_go n rest2).map (fun bs => (hi * 16 + lo) :: bs)
        | _ => none
    | _, _ => none
  | _, _ => none

/-- str_to_mac on the characters of the input string. -/
def str_to_mac (s : List Char) : Option (List Nat) := str_to_mac_go 6 s

/-- C8 counterexample evidence: the decoder accepts uppercase hex digits
(the C code has explicit A-F branches), so an input with uppercase hex
digits decodes successfully, contradicting the claim that every such
input fails. -/
theorem str_to_mac_accepts_uppercase :
    str_to_mac ("AA:BB:CC:DD:EE:FF".data) = some [170, 187, 204, 221, 238, 255] := by
  decide

theorem str_to_mac_go_shape :
    ∀ n s m, str_to_mac_go n s = some m →
      s.length = 3 * n - 1 ∧ m.length = n ∧
      (∀ k, k < s.length → (k % 3 = 2 → s.getD k default = ':') ∧
        (k % 3 ≠ 2 → (hex_val (s.getD k default)).isSome)) := by
  intro n
  induction n with
  | zero =>
    intro s m h
    cases s with
    | nil => exact Option.noConfusion h
    | cons c1 s1 => exact Option.noConfusion h
  | succ n ih =>
    intro s m h
    match s with
    | [] => exact Option.noConfusion h
    | [c1] => exact Option.noConfusion h
    | c1 :: c2 :: rest =>
      simp only [str_to_mac_go] at h
      cases hv1 : hex_val c1 with
      | none => rw [hv1] at h; exact Option.noConfusion h
      | some hi =>
        cases hv2 : hex_val c2 with
        | none => rw [hv1, hv2] at h; exact Option.noConfusion h
        | some lo =>
          rw [hv1, hv2] at h
          dsimp only at h
          by_cases hn : n = 0
          · subst hn
            rw [if_pos rfl] at h
            by_cases hr : rest = []
            · subst hr
              rw [if_pos rfl] at h
              obtain rfl := Option.some_inj.mp h
              refine ⟨by simp, by simp, ?_⟩
              intro k hk
              simp at hk
              interval_cases k
              · exact ⟨by omega, fun _ => by simp [List.getD, hv1]⟩
              · exact ⟨by omega, fun _ => by simp [List.getD, hv2]⟩
            · rw [if_neg hr] at h
              exact Option.noConfusion h
          · rw [if_neg hn] at h
            split at h
            · next rest2 =>
              rw [Option.map_eq_some'] at h
              obtain ⟨bs, hgo, hm⟩ := h
              obtain ⟨hlen, hblen, hpos⟩ := ih rest2 bs hgo
              refine ⟨?_, ?_, ?_⟩
              · simp only [List.length_cons, hlen]
                omega
              · rw [← hm]
                simp [hblen]
              · intro k hk
                match k with
                | 0 => exact ⟨by omega, fun _ => by simp [List.getD, hv1]⟩
                | 1 => exact ⟨by omega, fun _ => by simp [List.getD, hv2]⟩
                | 2 => exact ⟨fun _ => rfl, by omega⟩
                | (j + 3) =>
                  have hj : j < rest2.length := by
                    simp only [List.length_cons] at hk
                    omega
                  have hmod : (j + 3) % 3 = j % 3 := by omega
                  obtain ⟨hc, hh⟩ := hpos j hj
                  refine ⟨?_, ?_⟩
                  · intro hk2
                    rw [hmod] at hk2
                    simpa [List.getD] using hc hk2
                  · intro hk2
                    rw [hmod] at hk2
                    simpa [List.getD] using hh hk2
            · exact Option.noConfusion h

/-- C8 (amended): the decoder accepts a string only if it is exactly six
hex byte pairs joined by single colons with nothing before or after,
where the hex digits of a pair may be lowercase or uppercase: whenever
str_to_mac succeeds the input has exactly 17 characters, the characters
at positions 2, 5, 8, 11 and 14 are colons and every other character is
a hex digit, so any malformed byte pair, wrong separator, missing pair
or trailing character makes the decode fail (decoding is a pure value
computation with no table effect). -/
theorem str_to_mac_shape (s : List Char) (m : List Nat) (h : str_to_mac s = some m) :
    s.length = 17 ∧ m.length = 6 ∧
    (∀ k, k < 17 → (k % 3 = 2 → s.getD k default = ':') ∧
      (k % 3 ≠ 2 → (hex_val (s.getD k default)).isSome)) := by
  obtain ⟨h1, h2, h3⟩ := str_to_mac_go_shape 6 s m h
  refine ⟨by omega, h2, ?_⟩
  intro k hk
  exact h3 k (by omega)

/-- Witness for str_to_mac_shape at a mixed-case well-formed input. -/
theorem str_to_mac_shape_witness :
    ("00:11:aa:Bb:cc:dd".data.length = 17 ∧
      ([0, 17, 170, 187, 204, 221] : List Nat).length = 6 ∧
      (∀ k, k < 17 → (k % 3 = 2 → "00:11:aa:Bb:cc:dd".data.getD k default = ':') ∧
        (k % 3 ≠ 2 → (hex_val ("00:11:aa:Bb:cc:dd".data.getD k default)).isSome))) :=
  str_to_mac_shape ("00:11:aa:Bb:cc:dd".data) [0, 17, 170, 187, 204, 221] (by decide)

theorem hexval_hexChar : ∀ n, n < 16 → hex_val (hexChar n) = some n := by decide

theorem str_to_mac_go_roundtrip :
    ∀ m : List Nat, 0 < m.length → (∀ b ∈ m, b < 256) →
      str_to_mac_go m.length (mac_to_str m) = some m := by
  intro m
  induction m with
  | nil => intro h; exact absurd h (by simp)
  | cons b rest ih =>
    intro _ hb
    have hblt : b < 256 := hb b (by simp)
    have e1 : hex_val (hexChar (b / 16 % 16)) = some (b / 16 % 16) :=
      hexval_hexChar _ (by omega)
    have e2 : hex_val (hexChar (b % 16)) = some (b % 16) :=
      hexval_hexChar _ (by omega)
    have hbyte : b / 16 % 16 * 16 + b % 16 = b := by omega
    cases rest with
    | nil =>
      simp only [mac_to_str, List.length_cons, List.length_nil, str_to_mac_go, e1, e2]
      simp [hbyte]
    | cons b2 rest2 =>
      have ihr := ih (by simp) (fun x hx => hb x (List.mem_cons_of_mem _ hx))
      simp only [mac_to_str, List.length_cons, str_to_mac_go, e1, e2]
      simp only [List.length_cons] at ihr
      simp [ihr, hbyte]

/-- C9: decoding the string produced by encoding a 6-byte key returns
exactly the original bytes: str_to_mac (mac_to_str k) succeeds with k. -/
theorem mac_codec_roundtrip (m : List Nat) (hlen : m.length = 6)
    (hb : ∀ b ∈ m, b < 256) : str_to_mac (mac_to_str m) = some m := by
  unfold str_to_mac
  rw [← hlen]
  exact str_to_mac_go_roundtrip m (by omega) hb

/-- Witness for mac_codec_roundtrip at a concrete key. -/
theorem mac_codec_roundtrip_witness :
    str_to_mac (mac_to_str [0, 26, 43, 60, 77, 94]) = some [0, 26, 43, 60, 77, 94] :=
  mac_codec_roundtrip [0, 26, 43, 60, 77, 94] (by decide) (by decide)

end MacTable
